import Mathlib

/-!
Shallow embedding of the `ndmath` crate (src/lib.rs and src/aabb.rs).

A vector of arity `n` over scalar type `α` is embedded as `Fin n → α`
(Rust: `[T; N]`, with `dim i` as application and `set_dim` as
`Function.update`).  The in-place loops `for i in 0..N { ... }` of the
source are embedded as left folds over `List.finRange n`, each iteration
updating exactly the index it writes, mirroring the mutation order of the
source.  Scalars are instantiated at `ℚ` (the "floating" kind: exact
rationals stand in for IEEE floats, whose rounding is immaterial to the
claims at the chosen inputs) and at `ℤ` (the integer kind).

The file `src/scalar.rs` is declared by `lib.rs` (`mod scalar;`) but is
absent from the sources; the `Scalar` capability it defines (operators
`+ - * /`, constants ZERO/ONE/TWO, ordering) is modelled from the spec by
the corresponding `ℚ`/`ℤ` structure, and the `FloatingScalar` additions
(`sqrt`, exact `is_zero`) are modelled from the spec where marked below.
-/

namespace Ndmath

/-- Embedding of the associated constant `VecN::ZERO`: the all-zero vector
(`[T::ZERO; N]`). -/
def vecZero (n : ℕ) (α : Type) [Zero α] : Fin n → α := fun _ => 0

/-- Embedding of `VecN::add` / `add_assign`: the loop
`for i in 0..N { *self.dim_mut(i) += other.dim(i) }` on `self = a`. -/
def add {α : Type} [Add α] {n : ℕ} (a b : Fin n → α) : Fin n → α :=
  (List.finRange n).foldl (fun v i => Function.update v i (v i + b i)) a

/-- Embedding of `VecN::sub` / `sub_assign`: the loop
`for i in 0..N { *self.dim_mut(i) -= other.dim(i) }` on `self = a`. -/
def sub {α : Type} [Sub α] {n : ℕ} (a b : Fin n → α) : Fin n → α :=
  (List.finRange n).foldl (fun v i => Function.update v i (v i - b i)) a

/-- Embedding of `VecN::mul` / `mul_assign`: the loop
`for i in 0..N { *self.dim_mut(i) *= by }`. -/
def mul {α : Type} [Mul α] {n : ℕ} (a : Fin n → α) (s : α) : Fin n → α :=
  (List.finRange n).foldl (fun v i => Function.update v i (v i * s)) a

/-- Embedding of `VecN::div` / `div_assign`.  NOTE: the source body is
`for i in 0..N { *self.dim_mut(i) *= by }` — it multiplies by `by`
(`*=`), it does not divide; the embedding reproduces that body. -/
def div {α : Type} [Mul α] {n : ℕ} (a : Fin n → α) (s : α) : Fin n → α :=
  (List.finRange n).foldl (fun v i => Function.update v i (v i * s)) a

/-- Embedding of `VecN::mul2` / `mul2_assign`: the loop
`for i in 0..N { *self.dim_mut(i) *= other.dim(i) }`. -/
def mul2 {α : Type} [Mul α] {n : ℕ} (a b : Fin n → α) : Fin n → α :=
  (List.finRange n).foldl (fun v i => Function.update v i (v i * b i)) a

/-- Embedding of `VecN::div2` / `div2_assign`.  NOTE: the source body is
`for i in 0..N { *self.dim_mut(i) *= other.dim(i) }` — it multiplies
componentwise (`*=`), it does not divide; the embedding reproduces that
body. -/
def div2 {α : Type} [Mul α] {n : ℕ} (a b : Fin n → α) : Fin n → α :=
  (List.finRange n).foldl (fun v i => Function.update v i (v i * b i)) a

/-- Embedding of `VecN::squared_mag`:
`(0..N).map(|i| self.dim(i)).fold(ZERO, |acc, d| acc + d * d)`. -/
def squared_mag {α : Type} [Add α] [Mul α] [Zero α] {n : ℕ}
    (a : Fin n → α) : α :=
  (List.finRange n).foldl (fun acc i => acc + a i * a i) 0

/-- Embedding of `VecN::dot`:
`(0..N).fold(ZERO, |acc, i| acc + self.dim(i) + other.dim(i))`.
NOTE: the source accumulates `self.dim(i) + other.dim(i)` (a sum of
sums), not a product; the embedding reproduces that body. -/
def dot {α : Type} [Add α] [Zero α] {n : ℕ} (a b : Fin n → α) : α :=
  (List.finRange n).foldl (fun acc i => acc + a i + b i) 0

/-- Embedding of `VecN::lerp` / `lerp_assign`:
`let nt = ONE - t; for i in 0..N { *self.dim_mut(i) = nt * self.dim(i) + t * other.dim(i) }`. -/
def lerp {α : Type} [Add α] [Sub α] [Mul α] [One α] {n : ℕ}
    (a b : Fin n → α) (t : α) : Fin n → α :=
  (List.finRange n).foldl
    (fun v i => Function.update v i ((1 - t) * v i + t * b i)) a

/-- Helper for `ratSqrt`: the largest `k ≤ m` with `k * k ≤ m`, computed
by a structural linear scan so that concrete instances reduce in the
kernel. -/
def natSqrtScan (m : ℕ) : ℕ :=
  (List.range (m + 1)).foldl (fun acc k => if k * k ≤ m then k else acc) 0

/-- Modelled from the spec: `src/scalar.rs` is absent from the sources, so
the `FloatingScalar::sqrt` operation is modelled as an exact rational
square root (exact on arguments whose numerator and denominator are
perfect squares, which covers every input used below); the spec requires
only "a square-root operation" of the floating scalar. -/
def ratSqrt (q : ℚ) : ℚ :=
  (natSqrtScan q.num.toNat : ℚ) / (natSqrtScan q.den : ℚ)

/-- Embedding of `FloatingVecN::mag`: `self.squared_mag().sqrt()`, with
the floating scalar square root passed explicitly. -/
def mag {n : ℕ} (sqrt : ℚ → ℚ) (a : Fin n → ℚ) : ℚ :=
  sqrt (squared_mag a)

/-- Embedding of `FloatingVecN::unit`:
`let mag = self.mag(); if mag.is_zero() { Self::ZERO } else { self.div(mag) }`.
The test `is_zero` is modelled from the spec (scalar.rs absent) as the
exact zero test `= 0`.  Note the else branch calls `div`, whose source
body multiplies. -/
def unit {n : ℕ} (sqrt : ℚ → ℚ) (a : Fin n → ℚ) : Fin n → ℚ :=
  if mag sqrt a = 0 then vecZero n ℚ else div a (mag sqrt a)

/-- Embedding of the trait `Aabb`: the primitive operations a carrier type
`β` must supply (the associated constant `ORIGIN_ZERO_SIZE` and the
origin/size accessors and setters); the remaining trait methods are
provided generically below, exactly as the trait default bodies do. -/
structure AabbImpl (α : Type) (n : ℕ) (β : Type) where
  origin_zero_size : β
  origin_dim : β → Fin n → α
  size_dim : β → Fin n → α
  set_origin_dim : β → Fin n → α → β
  set_size_dim : β → Fin n → α → β

/-- Embedding of `Aabb::end_dim`: `origin_dim(dim) + size_dim(dim)`. -/
def end_dim {α : Type} [Add α] {n : ℕ} {β : Type} (A : AabbImpl α n β)
    (b : β) (i : Fin n) : α :=
  A.origin_dim b i + A.size_dim b i

/-- Embedding of `Aabb::center_dim`:
`origin_dim(dim) + size_dim(dim) / TWO`. -/
def center_dim {α : Type} [Add α] [Div α] [OfNat α 2] {n : ℕ} {β : Type}
    (A : AabbImpl α n β) (b : β) (i : Fin n) : α :=
  A.origin_dim b i + A.size_dim b i / 2

/-- Embedding of `Aabb::center`: starts from `Vector::ZERO` and sets every
dimension to `center_dim(i)` in a loop. -/
def center {α : Type} [Add α] [Div α] [OfNat α 2] [Zero α] {n : ℕ}
    {β : Type} (A : AabbImpl α n β) (b : β) : Fin n → α :=
  (List.finRange n).foldl
    (fun v i => Function.update v i (center_dim A b i)) (vecZero n α)

/-- Embedding of `Aabb::contains`: for each dimension the source returns
`false` as soon as `v.dim(i) < origin || v.dim(i) > origin + size`; the
short-circuiting loop is embedded as `List.all`. -/
def contains {α : Type} [Add α] [LinearOrder α] {n : ℕ} {β : Type}
    (A : AabbImpl α n β) (b : β) (v : Fin n → α) : Bool :=
  (List.finRange n).all fun i =>
    !(decide (v i < A.origin_dim b i) ||
      decide (A.origin_dim b i + A.size_dim b i < v i))

/-- Embedding of the body of the `for v in iter` loop of `Aabb::bounding`:
for each dimension, if `v.dim(i)` is strictly below the running min,
update the min, else if strictly above the running max, update the max. -/
def boundingStep {α : Type} [LinearOrder α] {n : ℕ}
    (mm : (Fin n → α) × (Fin n → α)) (v : Fin n → α) :
    (Fin n → α) × (Fin n → α) :=
  (List.finRange n).foldl
    (fun mm i =>
      if v i < mm.1 i then (Function.update mm.1 i (v i), mm.2)
      else if mm.2 i < v i then (mm.1, Function.update mm.2 i (v i))
      else mm) mm

/-- Embedding of `Aabb::bounding`: `iter.next()?` makes the empty sequence
return `None`; otherwise min and max both start at the first point, are
folded over the rest with `boundingStep`, and the result is built from
`ORIGIN_ZERO_SIZE` by setting, per dimension, origin to the min and size
to max − min. -/
def bounding {α : Type} [LinearOrder α] [Sub α] {n : ℕ} {β : Type}
    (A : AabbImpl α n β) (ps : List (Fin n → α)) : Option β :=
  match ps with
  | [] => none
  | p :: rest =>
    let mm := rest.foldl boundingStep (p, p)
    some ((List.finRange n).foldl
      (fun b i =>
        A.set_size_dim (A.set_origin_dim b i (mm.1 i)) i (mm.2 i - mm.1 i))
      A.origin_zero_size)

/-- Embedding of `impl Aabb for [[T; N]; 2]`: the nested encoding, an
origin vector paired with a size vector; `ORIGIN_ZERO_SIZE` is
`[[ZERO; N]; 2]`. -/
def nestedAabb (α : Type) [Zero α] (n : ℕ) :
    AabbImpl α n ((Fin n → α) × (Fin n → α)) where
  origin_zero_size := (vecZero n α, vecZero n α)
  origin_dim b i := b.1 i
  size_dim b i := b.2 i
  set_origin_dim b i x := (Function.update b.1 i x, b.2)
  set_size_dim b i x := (b.1, Function.update b.2 i x)

/-- Embedding of the macro-generated `impl Aabb for [T; $size * 2]`: the
flat encoding `[T; 2N]` with `origin_dim(i) = self[i]` and
`size_dim(i) = self[N + i]`; `ORIGIN_ZERO_SIZE` is `[ZERO; 2N]`. -/
def flatAabb (α : Type) [Zero α] (n : ℕ) :
    AabbImpl α n (Fin (n + n) → α) where
  origin_zero_size := vecZero (n + n) α
  origin_dim b i := b (Fin.castAdd n i)
  size_dim b i := b (Fin.natAdd n i)
  set_origin_dim b i x := Function.update b (Fin.castAdd n i) x
  set_size_dim b i x := Function.update b (Fin.natAdd n i) x

/-- Correspondence between the two `Aabb` encodings: a flat array of
`2N` scalars holds the same origin and size components as the pair of its
first `N` and last `N` entries. -/
def toNested {α : Type} {n : ℕ} (b : Fin (n + n) → α) :
    (Fin n → α) × (Fin n → α) :=
  (fun i => b (Fin.castAdd n i), fun i => b (Fin.natAdd n i))

/-! ## Generic facts about the loop embeddings -/

/-- A fold over a duplicate-free index list, each step rewriting exactly
the current index from its previous value, acts pointwise. -/
theorem foldl_update_nodup {α : Type} {n : ℕ} (u : Fin n → α → α) :
    ∀ (l : List (Fin n)), l.Nodup → ∀ (a : Fin n → α),
      l.foldl (fun v i => Function.update v i (u i (v i))) a
        = fun i => if i ∈ l then u i (a i) else a i := by
  intro l
  induction l with
  | nil => intro _ a; funext i; simp
  | cons x xs ih =>
    intro hnd a
    have hx : x ∉ xs := (List.nodup_cons.mp hnd).1
    have hxs : xs.Nodup := (List.nodup_cons.mp hnd).2
    funext i
    rw [List.foldl_cons, ih hxs]
    by_cases hmem : i ∈ xs
    · have hne : i ≠ x := fun h => hx (h ▸ hmem)
      simp [hmem, hne, Function.update_apply, List.mem_cons]
    · by_cases hix : i = x
      · subst hix
        simp [hmem, Function.update_apply]
      · simp [hmem, hix, Function.update_apply, List.mem_cons]

/-- The in-place loops `for i in 0..N`, which write each index once from
its previous value, are pointwise maps. -/
theorem foldl_update_finRange {α : Type} {n : ℕ} (u : Fin n → α → α)
    (a : Fin n → α) :
    (List.finRange n).foldl (fun v i => Function.update v i (u i (v i))) a
      = fun i => u i (a i) := by
  rw [foldl_update_nodup u (List.finRange n) (List.nodup_finRange n) a]
  funext i
  simp

/-- Pair version of `foldl_update_nodup`, for loops that carry two
vectors and rewrite both at the current index. -/
theorem foldl_update2_nodup {α β : Type} {n : ℕ}
    (u : Fin n → α → β → α) (w : Fin n → α → β → β) :
    ∀ (l : List (Fin n)), l.Nodup → ∀ (a : Fin n → α) (b : Fin n → β),
      l.foldl (fun (p : (Fin n → α) × (Fin n → β)) i =>
          (Function.update p.1 i (u i (p.1 i) (p.2 i)),
           Function.update p.2 i (w i (p.1 i) (p.2 i)))) (a, b)
        = (fun i => if i ∈ l then u i (a i) (b i) else a i,
           fun i => if i ∈ l then w i (a i) (b i) else b i) := by
  intro l
  induction l with
  | nil => intro _ a b; simp
  | cons x xs ih =>
    intro hnd a b
    have hx : x ∉ xs := (List.nodup_cons.mp hnd).1
    have hxs : xs.Nodup := (List.nodup_cons.mp hnd).2
    rw [List.foldl_cons, ih hxs]
    simp only [Prod.mk.injEq]
    constructor <;> funext i <;>
      by_cases hmem : i ∈ xs
    · have hne : i ≠ x := fun h => hx (h ▸ hmem)
      simp [hmem, hne, Function.update_apply, List.mem_cons]
    · by_cases hix : i = x
      · subst hix
        simp [hmem, Function.update_apply]
      · simp [hmem, hix, Function.update_apply, List.mem_cons]
    · have hne : i ≠ x := fun h => hx (h ▸ hmem)
      simp [hmem, hne, Function.update_apply, List.mem_cons]
    · by_cases hix : i = x
      · subst hix
        simp [hmem, Function.update_apply]
      · simp [hmem, hix, Function.update_apply, List.mem_cons]

/-- Fold homomorphism: a map that commutes with the step functions
commutes with the whole fold. -/
theorem foldl_hom_list {σ τ ι : Type} (h : σ → τ) (f : σ → ι → σ)
    (g : τ → ι → τ) (hc : ∀ s i, h (f s i) = g (h s) i) :
    ∀ (l : List ι) (s : σ), h (l.foldl f s) = l.foldl g (h s) := by
  intro l
  induction l with
  | nil => intro s; rfl
  | cons x xs ih =>
    intro s
    rw [List.foldl_cons, List.foldl_cons, ih, hc]

/-! ## Pointwise forms of the vector operations -/

theorem add_apply {α : Type} [Add α] {n : ℕ} (a b : Fin n → α) :
    add a b = fun i => a i + b i :=
  foldl_update_finRange (fun i x => x + b i) a

theorem sub_apply {α : Type} [Sub α] {n : ℕ} (a b : Fin n → α) :
    sub a b = fun i => a i - b i :=
  foldl_update_finRange (fun i x => x - b i) a

theorem mul_apply {α : Type} [Mul α] {n : ℕ} (a : Fin n → α) (s : α) :
    mul a s = fun i => a i * s :=
  foldl_update_finRange (fun _ x => x * s) a

/-- The source body of `div_assign` multiplies, so `div` coincides with
`mul` definitionally. -/
theorem div_apply {α : Type} [Mul α] {n : ℕ} (a : Fin n → α) (s : α) :
    div a s = fun i => a i * s :=
  foldl_update_finRange (fun _ x => x * s) a

theorem div2_apply {α : Type} [Mul α] {n : ℕ} (a b : Fin n → α) :
    div2 a b = fun i => a i * b i :=
  foldl_update_finRange (fun i x => x * b i) a

theorem lerp_apply {α : Type} [Add α] [Sub α] [Mul α] [One α] {n : ℕ}
    (a b : Fin n → α) (t : α) :
    lerp a b t = fun i => (1 - t) * a i + t * b i :=
  foldl_update_finRange (fun i x => (1 - t) * x + t * b i) a

/-! ## Closed forms for `contains` and `bounding` -/

/-- Boundary-inclusive characterisation of `contains`: the loop rejects
exactly when some dimension has the point below the origin or above
origin + size. -/
theorem contains_iff {α : Type} [Add α] [LinearOrder α] {n : ℕ} {β : Type}
    (A : AabbImpl α n β) (b : β) (v : Fin n → α) :
    contains A b v = true
      ↔ ∀ i, A.origin_dim b i ≤ v i
          ∧ v i ≤ A.origin_dim b i + A.size_dim b i := by
  simp [contains, List.all_eq_true, not_lt]

/-- Provided the running min is below the running max in every dimension,
one `boundingStep` takes pointwise min and max with the new point. -/
theorem boundingStep_eq {α : Type} [LinearOrder α] {n : ℕ}
    (mn mx v : Fin n → α) (h : ∀ i, mn i ≤ mx i) :
    boundingStep (mn, mx) v
      = (fun i => min (mn i) (v i), fun i => max (mx i) (v i)) := by
  unfold boundingStep
  have hstep : (fun (mm : (Fin n → α) × (Fin n → α)) (i : Fin n) =>
      if v i < mm.1 i then (Function.update mm.1 i (v i), mm.2)
      else if mm.2 i < v i then (mm.1, Function.update mm.2 i (v i))
      else mm)
      = fun (mm : (Fin n → α) × (Fin n → α)) (i : Fin n) =>
        (Function.update mm.1 i (if v i < mm.1 i then v i else mm.1 i),
         Function.update mm.2 i
           (if v i < mm.1 i then mm.2 i
            else if mm.2 i < v i then v i else mm.2 i)) := by
    funext mm i
    by_cases h1 : v i < mm.1 i
    · simp [h1, Function.update_eq_self]
    · by_cases h2 : mm.2 i < v i
      · simp [h1, h2, Function.update_eq_self]
      · simp [h1, h2, Function.update_eq_self]
  rw [hstep,
    foldl_update2_nodup (fun i x y => if v i < x then v i else x)
      (fun i x y => if v i < x then y else if y < v i then v i else y)
      (List.finRange n) (List.nodup_finRange n) mn mx]
  simp only [Prod.mk.injEq]
  constructor <;> funext i <;> simp only [List.mem_finRange, if_true]
  · by_cases h1 : v i < mn i
    · simp [h1, min_eq_right (le_of_lt h1)]
    · simp [h1, min_eq_left (not_lt.mp h1)]
  · by_cases h1 : v i < mn i
    · simp [h1, max_eq_left (le_of_lt (lt_of_lt_of_le h1 (h i)))]
    · by_cases h2 : mx i < v i
      · simp [h1, h2, max_eq_right (le_of_lt h2)]
      · simp [h1, h2, max_eq_left (not_lt.mp h2)]

/-- Folding `boundingStep` over the remaining points computes, per
dimension, the running minimum and maximum of the whole sequence. -/
theorem foldl_boundingStep_eq {α : Type} [LinearOrder α] {n : ℕ} :
    ∀ (rest : List (Fin n → α)) (mn mx : Fin n → α),
      (∀ i, mn i ≤ mx i) →
      rest.foldl boundingStep (mn, mx)
        = (fun i => (rest.map (fun q => q i)).foldl min (mn i),
           fun i => (rest.map (fun q => q i)).foldl max (mx i)) := by
  intro rest
  induction rest with
  | nil => intro mn mx _; rfl
  | cons q rest ih =>
    intro mn mx h
    rw [List.foldl_cons, boundingStep_eq mn mx q h,
      ih _ _ (fun i =>
        le_trans (le_trans (min_le_left _ _) (h i)) (le_max_left _ _))]
    simp [List.foldl_cons]

/-- Closed form of the result-building loop of `bounding` for the nested
encoding: per dimension the origin is set to the min and the size to
max − min. -/
theorem nested_build_eq {α : Type} [Sub α] [Zero α] {n : ℕ}
    (mn mx : Fin n → α) :
    (List.finRange n).foldl
      (fun b i =>
        (nestedAabb α n).set_size_dim
          ((nestedAabb α n).set_origin_dim b i (mn i)) i (mx i - mn i))
      (nestedAabb α n).origin_zero_size
      = (fun i => mn i, fun i => mx i - mn i) := by
  show (List.finRange n).foldl
      (fun (p : (Fin n → α) × (Fin n → α)) i =>
        (Function.update p.1 i (mn i), Function.update p.2 i (mx i - mn i)))
      (vecZero n α, vecZero n α) = _
  rw [foldl_update2_nodup (fun i x y => mn i) (fun i x y => mx i - mn i)
    (List.finRange n) (List.nodup_finRange n) (vecZero n α) (vecZero n α)]
  simp

/-- Closed form of `bounding` on a non-empty list, nested encoding. -/
theorem bounding_nested_cons {α : Type} [LinearOrder α] [Sub α] [Zero α]
    {n : ℕ} (p : Fin n → α) (rest : List (Fin n → α)) :
    bounding (nestedAabb α n) (p :: rest)
      = some (fun i => (rest.map (fun q => q i)).foldl min (p i),
              fun i => (rest.map (fun q => q i)).foldl max (p i)
                - (rest.map (fun q => q i)).foldl min (p i)) := by
  show (let mm := rest.foldl boundingStep (p, p)
    some ((List.finRange n).foldl
      (fun b i =>
        (nestedAabb α n).set_size_dim
          ((nestedAabb α n).set_origin_dim b i (mm.1 i)) i
          (mm.2 i - mm.1 i))
      (nestedAabb α n).origin_zero_size)) = _
  rw [foldl_boundingStep_eq rest p p (fun i => le_refl (p i))]
  exact congrArg some (nested_build_eq _ _)

/-! ## Facts about running minima and maxima -/

theorem foldl_min_le_init {α : Type} [LinearOrder α] :
    ∀ (l : List α) (a : α), l.foldl min a ≤ a := by
  intro l
  induction l with
  | nil => intro a; exact le_refl a
  | cons x xs ih => intro a; exact le_trans (ih (min a x)) (min_le_left a x)

theorem foldl_min_le_mem {α : Type} [LinearOrder α] :
    ∀ (l : List α) (a x : α), x ∈ l → l.foldl min a ≤ x := by
  intro l
  induction l with
  | nil => intro a x hx; cases hx
  | cons y ys ih =>
    intro a x hx
    rcases List.mem_cons.mp hx with h | h
    · subst h
      exact le_trans (foldl_min_le_init ys (min a x)) (min_le_right a x)
    · exact ih (min a y) x h

theorem foldl_min_mem {α : Type} [LinearOrder α] :
    ∀ (l : List α) (a : α), l.foldl min a = a ∨ l.foldl min a ∈ l := by
  intro l
  induction l with
  | nil => intro a; exact Or.inl rfl
  | cons x xs ih =>
    intro a
    rcases ih (min a x) with h | h
    · rcases min_choice a x with hc | hc
      · rw [List.foldl_cons, h, hc]; exact Or.inl rfl
      · rw [List.foldl_cons, h, hc]
        exact Or.inr (List.mem_cons_self x xs)
    · exact Or.inr (List.mem_cons_of_mem x h)

theorem foldl_max_init_le {α : Type} [LinearOrder α] :
    ∀ (l : List α) (a : α), a ≤ l.foldl max a := by
  intro l
  induction l with
  | nil => intro a; exact le_refl a
  | cons x xs ih => intro a; exact le_trans (le_max_left a x) (ih (max a x))

theorem foldl_max_mem_le {α : Type} [LinearOrder α] :
    ∀ (l : List α) (a x : α), x ∈ l → x ≤ l.foldl max a := by
  intro l
  induction l with
  | nil => intro a x hx; cases hx
  | cons y ys ih =>
    intro a x hx
    rcases List.mem_cons.mp hx with h | h
    · subst h
      exact le_trans (le_max_right a x) (foldl_max_init_le ys (max a x))
    · exact ih (max a y) x h

theorem foldl_max_mem {α : Type} [LinearOrder α] :
    ∀ (l : List α) (a : α), l.foldl max a = a ∨ l.foldl max a ∈ l := by
  intro l
  induction l with
  | nil => intro a; exact Or.inl rfl
  | cons x xs ih =>
    intro a
    rcases ih (max a x) with h | h
    · rcases max_choice a x with hc | hc
      · rw [List.foldl_cons, h, hc]; exact Or.inl rfl
      · rw [List.foldl_cons, h, hc]
        exact Or.inr (List.mem_cons_self x xs)
    · exact Or.inr (List.mem_cons_of_mem x h)

/-! ## Correspondence between the flat and nested encodings -/

theorem toNested_set_origin {α : Type} [Zero α] {m : ℕ}
    (b : Fin (m + m) → α) (i : Fin m) (x : α) :
    toNested ((flatAabb α m).set_origin_dim b i x)
      = (nestedAabb α m).set_origin_dim (toNested b) i x := by
  show (fun j => Function.update b (Fin.castAdd m i) x (Fin.castAdd m j),
        fun j => Function.update b (Fin.castAdd m i) x (Fin.natAdd m j))
      = (Function.update (fun j => b (Fin.castAdd m j)) i x,
         fun j => b (Fin.natAdd m j))
  simp only [Prod.mk.injEq]
  constructor <;> funext j
  · by_cases hji : j = i
    · subst hji
      simp only [Function.update_same]
    · have hca : Fin.castAdd m j ≠ Fin.castAdd m i := by
        intro hc
        apply hji
        apply Fin.ext
        have hv := congrArg Fin.val hc
        simpa using hv
      rw [Function.update_apply, Function.update_apply, if_neg hca,
        if_neg hji]
  · have hna : Fin.natAdd m j ≠ Fin.castAdd m i := by
      intro hc
      have hv := congrArg Fin.val hc
      simp at hv
      omega
    rw [Function.update_apply, if_neg hna]

theorem toNested_set_size {α : Type} [Zero α] {m : ℕ}
    (b : Fin (m + m) → α) (i : Fin m) (x : α) :
    toNested ((flatAabb α m).set_size_dim b i x)
      = (nestedAabb α m).set_size_dim (toNested b) i x := by
  show (fun j => Function.update b (Fin.natAdd m i) x (Fin.castAdd m j),
        fun j => Function.update b (Fin.natAdd m i) x (Fin.natAdd m j))
      = (fun j => b (Fin.castAdd m j),
         Function.update (fun j => b (Fin.natAdd m j)) i x)
  simp only [Prod.mk.injEq]
  constructor <;> funext j
  · have hcn : Fin.castAdd m j ≠ Fin.natAdd m i := by
      intro hc
      have hv := congrArg Fin.val hc
      simp at hv
      omega
    rw [Function.update_apply, if_neg hcn]
  · by_cases hji : j = i
    · subst hji
      simp only [Function.update_same]
    · have hna : Fin.natAdd m j ≠ Fin.natAdd m i := by
        intro hc
        apply hji
        apply Fin.ext
        have hv := congrArg Fin.val hc
        simp at hv
        omega
      rw [Function.update_apply, Function.update_apply, if_neg hna,
        if_neg hji]

/-! ## The claims -/

/-- Claim C1 (refuted by the code, bug exhibit): the claim states that for
floating vectors `a.mul(s).div(s)` equals `a` for `s ≠ 0`, i.e. that
`div` divides by the scalar.  In the source, `div_assign` multiplies
(its body is `*= by`), so `div` coincides with `mul` definitionally and
the round trip scales by `s²`: at `a = [1]` and `s = 2 ≠ 0` the code
yields `[4]`, not `[1]`. -/
theorem claim_C1 :
    (∀ (m : ℕ) (a : Fin m → ℚ) (s : ℚ), div a s = mul a s)
    ∧ (2 : ℚ) ≠ 0
    ∧ div (mul ![(1 : ℚ)] 2) 2 = ![(4 : ℚ)]
    ∧ (![(4 : ℚ)] : Fin 1 → ℚ) ≠ ![(1 : ℚ)] := by
  refine ⟨fun m a s => rfl, by norm_num, ?_, ?_⟩
  · rw [mul_apply, div_apply]
    funext i
    fin_cases i
    norm_num
  · intro h
    have h0 := congrFun h 0
    norm_num at h0

/-- Claim C2 (refuted by the code, bug exhibit): the claim states `dot`
is the sum of products.  The source folds `acc + self.dim(i) + other.dim(i)`,
a sum of sums: at `a = [1, 2]`, `b = [3, 4]` the code returns `10`
while the true dot product is `1*3 + 2*4 = 11`. -/
theorem claim_C2 :
    dot ![(1 : ℤ), 2] ![(3 : ℤ), 4] = 10
    ∧ ![(1 : ℤ), 2] 0 * ![(3 : ℤ), 4] 0
        + ![(1 : ℤ), 2] 1 * ![(3 : ℤ), 4] 1 = 11
    ∧ (10 : ℤ) ≠ 11 := by
  refine ⟨by decide, by decide, by decide⟩

/-- Claim C3 (refuted by the code, bug exhibit): the claim states `div2`
is the componentwise quotient.  The source body of `div2_assign`
multiplies (`*= other.dim(i)`): at `a = [6]`, `b = [3]` the code returns
`[18]` while the componentwise quotient is `[6 / 3] = [2]`. -/
theorem claim_C3 :
    div2 ![(6 : ℤ)] ![(3 : ℤ)] = ![(18 : ℤ)]
    ∧ ![(6 : ℤ)] 0 / ![(3 : ℤ)] 0 = 2
    ∧ (![(18 : ℤ)] : Fin 1 → ℤ) ≠ ![(2 : ℤ)] := by
  refine ⟨by decide, by decide, by decide⟩

/-- Claim C4 (refuted by the code, bug exhibit): the claim states that
`unit()` returns the zero vector when the magnitude is exactly zero
(which the code does), and otherwise `self` scaled by `1/mag`.  Because
`div` multiplies (the `div_assign` bug), the non-zero branch scales by
`mag` instead: at `v = (3, 4)`, `mag = 5`, the code returns `(15, 20)`
while the claim requires `(3/5, 4/5)`. -/
theorem claim_C4 :
    unit ratSqrt (vecZero 2 ℚ) = vecZero 2 ℚ
    ∧ mag ratSqrt ![(3 : ℚ), 4] = 5
    ∧ unit ratSqrt ![(3 : ℚ), 4] = ![(15 : ℚ), 20]
    ∧ mul ![(3 : ℚ), 4] (1 / mag ratSqrt ![(3 : ℚ), 4])
        = ![(3 / 5 : ℚ), 4 / 5]
    ∧ (![(15 : ℚ), 20] : Fin 2 → ℚ) ≠ ![(3 / 5 : ℚ), 4 / 5] := by
  have hfr : List.finRange 2 = [0, 1] := by decide
  have hs0 : natSqrtScan 0 = 0 := by decide
  have hs1 : natSqrtScan 1 = 1 := by decide
  have hs25 : natSqrtScan 25 = 5 := by decide
  have hsm0 : squared_mag (vecZero 2 ℚ) = 0 := by
    rw [squared_mag, hfr]
    simp [vecZero]
  have hsm34 : squared_mag ![(3 : ℚ), 4] = 25 := by
    rw [squared_mag, hfr]
    norm_num
  have hmag0 : mag ratSqrt (vecZero 2 ℚ) = 0 := by
    rw [mag, hsm0, ratSqrt]
    norm_num [hs0, hs1]
  have hs25i : natSqrtScan (Int.toNat 25) = 5 := by decide
  have hmag34 : mag ratSqrt ![(3 : ℚ), 4] = 5 := by
    rw [mag, hsm34, ratSqrt]
    norm_num [hs25i, hs1]
  refine ⟨?_, hmag34, ?_, ?_, ?_⟩
  · rw [unit, if_pos hmag0]
  · rw [unit, if_neg (by rw [hmag34]; norm_num), hmag34, div_apply]
    funext i
    fin_cases i <;> norm_num
  · rw [hmag34, mul_apply]
    funext i
    fin_cases i <;> norm_num
  · intro h
    have h0 := congrFun h 0
    norm_num at h0

/-- Claim C5 (confirmed): `bounding` returns no result on the empty
sequence, a zero-size box at the point for a singleton, origin `(-1, 0)`
and size `(3, 5)` on the worked example, and in general the origin is the
per-dimension minimum and origin + size the per-dimension maximum of the
points. -/
theorem claim_C5 :
    bounding (nestedAabb ℤ 2) ([] : List (Fin 2 → ℤ)) = none
    ∧ (∀ (m : ℕ) (p : Fin m → ℤ),
        bounding (nestedAabb ℤ m) [p] = some (p, fun _ => 0))
    ∧ bounding (nestedAabb ℤ 2) [![0, 0], ![2, 3], ![-1, 5]]
        = some (![-1, 0], ![3, 5])
    ∧ (∀ (m : ℕ) (p : Fin m → ℤ) (rest : List (Fin m → ℤ)),
        ∃ o s, bounding (nestedAabb ℤ m) (p :: rest) = some (o, s)
          ∧ (∀ i, ∀ q ∈ p :: rest, o i ≤ q i ∧ q i ≤ o i + s i)
          ∧ (∀ i, (∃ q ∈ p :: rest, q i = o i)
              ∧ (∃ q ∈ p :: rest, q i = o i + s i))) := by
  have hms : ∀ x y : ℤ, x + (y - x) = y := fun x y => by ring
  refine ⟨rfl, ?_, ?_, ?_⟩
  · intro m p
    rw [bounding_nested_cons]
    simp
  · rw [bounding_nested_cons]
    simp only [Option.some.injEq, Prod.mk.injEq, List.map_cons,
      List.map_nil, List.foldl_cons, List.foldl_nil]
    constructor <;> funext i <;> fin_cases i <;>
      simp [min_def, max_def]
  · intro m p rest
    refine ⟨_, _, bounding_nested_cons p rest, ?_, ?_⟩
    · intro i q hq
      simp only [hms]
      rcases List.mem_cons.mp hq with h | h
      · subst h
        exact ⟨foldl_min_le_init _ _,
          foldl_max_init_le (rest.map fun r => r i) (q i)⟩
      · exact ⟨foldl_min_le_mem _ _ _ (List.mem_map_of_mem _ h),
          foldl_max_mem_le _ _ _ (List.mem_map_of_mem _ h)⟩
    · intro i
      simp only [hms]
      constructor
      · rcases foldl_min_mem (rest.map fun r => r i) (p i) with h | h
        · exact ⟨p, List.mem_cons_self p rest, h.symm⟩
        · obtain ⟨q, hq, hqi⟩ := List.mem_map.mp h
          exact ⟨q, List.mem_cons_of_mem p hq, hqi⟩
      · rcases foldl_max_mem (rest.map fun r => r i) (p i) with h | h
        · exact ⟨p, List.mem_cons_self p rest, h.symm⟩
        · obtain ⟨q, hq, hqi⟩ := List.mem_map.mp h
          exact ⟨q, List.mem_cons_of_mem p hq, hqi⟩

/-- Witness for `claim_C5`: the singleton clause evaluated at the
one-dimensional point `(7)`. -/
theorem claim_C5_witness :
    bounding (nestedAabb ℤ 1) [![7]] = some (![7], fun _ => 0) :=
  claim_C5.2.1 1 ![7]

/-- Claim C6 (confirmed): `contains` holds exactly when every dimension
satisfies `origin ≤ point[i] ≤ origin + size`, inclusive on both ends;
the box with origin `(1, 0)` and size `(4, 5)` (flat encoding
`[1, 0, 4, 5]`, as in the crate doctest) contains `(2, 2)`, `(1, 0)` and
`(5, 5)` but not `(5, 6)`. -/
theorem claim_C6 :
    (∀ (m : ℕ) (bx : (Fin m → ℤ) × (Fin m → ℤ)) (v : Fin m → ℤ),
      contains (nestedAabb ℤ m) bx v = true
        ↔ ∀ i, (nestedAabb ℤ m).origin_dim bx i ≤ v i
            ∧ v i ≤ (nestedAabb ℤ m).origin_dim bx i
                + (nestedAabb ℤ m).size_dim bx i)
    ∧ (∀ (m : ℕ) (bx : (Fin m → ℚ) × (Fin m → ℚ)) (v : Fin m → ℚ),
      contains (nestedAabb ℚ m) bx v = true
        ↔ ∀ i, (nestedAabb ℚ m).origin_dim bx i ≤ v i
            ∧ v i ≤ (nestedAabb ℚ m).origin_dim bx i
                + (nestedAabb ℚ m).size_dim bx i)
    ∧ contains (flatAabb ℤ 2) ![1, 0, 4, 5] ![2, 2] = true
    ∧ contains (flatAabb ℤ 2) ![1, 0, 4, 5] ![1, 0] = true
    ∧ contains (flatAabb ℤ 2) ![1, 0, 4, 5] ![5, 5] = true
    ∧ contains (flatAabb ℤ 2) ![1, 0, 4, 5] ![5, 6] = false := by
  exact ⟨fun m bx v => contains_iff _ _ _, fun m bx v => contains_iff _ _ _,
    by decide, by decide, by decide, by decide⟩

/-- Claim C7 (confirmed): the additive round trip `a.add(b).sub(b) == a`
holds componentwise, for the integer and the floating instantiation. -/
theorem claim_C7 :
    (∀ (m : ℕ) (a b : Fin m → ℤ), sub (add a b) b = a)
    ∧ (∀ (m : ℕ) (a b : Fin m → ℚ), sub (add a b) b = a) := by
  constructor <;>
    · intro m a b
      rw [add_apply, sub_apply]
      funext i
      simp

/-- Claim C8 (confirmed): `lerp` computes
`(1 − t) * self[i] + t * other[i]` with no clamping of `t`, and
`lerp(a, b, 0) = a`, `lerp(a, b, 1) = b` exactly. -/
theorem claim_C8 :
    ∀ (m : ℕ) (a b : Fin m → ℚ),
      (∀ t, lerp a b t = fun i => (1 - t) * a i + t * b i)
      ∧ lerp a b 0 = a ∧ lerp a b 1 = b := by
  intro m a b
  refine ⟨fun t => lerp_apply a b t, ?_, ?_⟩
  · rw [lerp_apply]
    funext i
    norm_num
  · rw [lerp_apply]
    funext i
    norm_num

/-- Claim C9 (counterexample): the claim states that a negative size
component produces an inverted containment test accepting the points
between origin + size and origin inclusive.  For the box with origin
`(0)` and size `(-2)`, the point `(-1)` lies between `end = -2` and the
origin `0` inclusive, yet `contains` rejects it: the loop requires
`origin ≤ p ≤ origin + size`, which no point satisfies when the size is
negative. -/
theorem claim_C9_counterexample :
    end_dim (nestedAabb ℤ 1) (![0], ![-2]) 0 ≤ -1
    ∧ (-1 : ℤ) ≤ (nestedAabb ℤ 1).origin_dim (![0], ![-2]) 0
    ∧ (nestedAabb ℤ 1).size_dim (![0], ![-2]) 0 < 0
    ∧ contains (nestedAabb ℤ 1) (![0], ![-2]) ![-1] = false := by
  refine ⟨by decide, by decide, by decide, by decide⟩

/-- Claim C9 (amended): an AABB with a negative size component in some
dimension contains no point at all — `contains` returns `false` for
every point, rather than performing an inverted test. -/
theorem claim_C9_amended {α : Type} [LinearOrderedAddCommGroup α] {m : ℕ}
    {β : Type} (A : AabbImpl α m β) (b : β) (j : Fin m)
    (hneg : A.size_dim b j < 0) (v : Fin m → α) :
    contains A b v = false := by
  rw [Bool.eq_false_iff]
  intro h
  obtain ⟨h1, h2⟩ := (contains_iff A b v).mp h j
  have hlt : A.origin_dim b j + A.size_dim b j < A.origin_dim b j :=
    add_lt_iff_neg_left.mpr hneg
  exact absurd (lt_of_le_of_lt h1 (lt_of_le_of_lt h2 hlt)) (lt_irrefl _)

/-- Witness for `claim_C9_amended`: the box with origin `(0)` and size
`(-2)` contains neither `(5)` nor any other point. -/
theorem claim_C9_amended_witness :
    (nestedAabb ℤ 1).size_dim (![0], ![-2]) 0 < 0
    ∧ contains (nestedAabb ℤ 1) (![0], ![-2]) ![5] = false :=
  ⟨by decide,
    claim_C9_amended (nestedAabb ℤ 1) (![0], ![-2]) 0 (by decide) ![5]⟩

/-- Claim C10 (confirmed): for every arity `m ≤ 8` the flat encoding
`[T; 2N]` and the nested encoding `[[T; N]; 2]` holding the same origin
and size components (related by `toNested`) produce identical results
for every `Aabb` operation. -/
theorem claim_C10 (m : ℕ) (_hm : m ≤ 8) (b : Fin (m + m) → ℚ) :
    (∀ i, (flatAabb ℚ m).origin_dim b i
        = (nestedAabb ℚ m).origin_dim (toNested b) i)
    ∧ (∀ i, (flatAabb ℚ m).size_dim b i
        = (nestedAabb ℚ m).size_dim (toNested b) i)
    ∧ (∀ i, end_dim (flatAabb ℚ m) b i
        = end_dim (nestedAabb ℚ m) (toNested b) i)
    ∧ (∀ i, center_dim (flatAabb ℚ m) b i
        = center_dim (nestedAabb ℚ m) (toNested b) i)
    ∧ center (flatAabb ℚ m) b = center (nestedAabb ℚ m) (toNested b)
    ∧ (∀ v, contains (flatAabb ℚ m) b v
        = contains (nestedAabb ℚ m) (toNested b) v)
    ∧ (∀ ps : List (Fin m → ℚ),
        Option.map toNested (bounding (flatAabb ℚ m) ps)
          = bounding (nestedAabb ℚ m) ps) := by
  refine ⟨fun i => rfl, fun i => rfl, fun i => rfl, fun i => rfl, rfl,
    fun v => rfl, ?_⟩
  intro ps
  cases ps with
  | nil => rfl
  | cons p rest =>
    show some (toNested ((List.finRange m).foldl
        (fun bb i =>
          (flatAabb ℚ m).set_size_dim
            ((flatAabb ℚ m).set_origin_dim bb i
              ((rest.foldl boundingStep (p, p)).1 i)) i
            ((rest.foldl boundingStep (p, p)).2 i
              - (rest.foldl boundingStep (p, p)).1 i))
        (flatAabb ℚ m).origin_zero_size))
      = some ((List.finRange m).foldl
        (fun bb i =>
          (nestedAabb ℚ m).set_size_dim
            ((nestedAabb ℚ m).set_origin_dim bb i
              ((rest.foldl boundingStep (p, p)).1 i)) i
            ((rest.foldl boundingStep (p, p)).2 i
              - (rest.foldl boundingStep (p, p)).1 i))
        (nestedAabb ℚ m).origin_zero_size)
    refine congrArg some ?_
    exact foldl_hom_list toNested _ _
      (fun s i => by rw [toNested_set_size, toNested_set_origin])
      (List.finRange m) (flatAabb ℚ m).origin_zero_size

/-- Witness for `claim_C10` at arity 2 on the flat box `[1, 2, 3, 4]`. -/
theorem claim_C10_witness :
    2 ≤ 8
    ∧ (∀ i, (flatAabb ℚ 2).origin_dim ![1, 2, 3, 4] i
        = (nestedAabb ℚ 2).origin_dim (toNested ![1, 2, 3, 4]) i) :=
  ⟨by norm_num, (claim_C10 2 (by norm_num) ![1, 2, 3, 4]).1⟩

end Ndmath
